import Mathlib

/-!
Verification of the VideoConverter command-line tool (src/main.py) against its
natural-language specification.  Strings are embedded as lists of characters
(`Str`), the path separator is modelled as `'/'`, filesystem state and external
process outcomes are explicit parameters, and each Python function from the
source is translated into a Lean definition of the same name.
-/

namespace VideoConverter

/-- Strings are modelled as lists of characters. -/
abbrev Str := List Char

/-! ## Constants from src/main.py -/

/-- Constant `INPUT_FOLDER = "01.入力"`. -/
def INPUT_FOLDER : Str := "01.入力".toList

/-- Constant `OUTPUT_FOLDER = "02.出力"`. -/
def OUTPUT_FOLDER : Str := "02.出力".toList

/-- Constant `SUPPORTED_FORMATS = [".mp4", ".avi", ".mkv", ".flv", ".mov", ".wmv"]`. -/
def SUPPORTED_FORMATS : List Str :=
  [".mp4".toList, ".avi".toList, ".mkv".toList, ".flv".toList, ".mov".toList, ".wmv".toList]

/-- Constant `BIN_FFMPEG_PATH = os.path.join("bin", "ffmpeg.exe")`, with the
separator modelled as `'/'`. -/
def BIN_FFMPEG_PATH : Str := "bin/ffmpeg.exe".toList

/-- Constant `SYSTEM_FFMPEG_PATH = "ffmpeg.exe"`. -/
def SYSTEM_FFMPEG_PATH : Str := "ffmpeg.exe".toList

/-! ## Outcomes of external process invocations

`subprocess.run` either raises an exception (for instance `FileNotFoundError`
when the executable does not exist) or completes with an exit code and captured
standard output. -/

/-- Outcome of one `subprocess.run` invocation. -/
inductive RunResult : Type where
  | raised : RunResult
  | completed (returncode : Int) (stdout : Str) : RunResult
deriving DecidableEq, Repr

/-! ## find_ffmpeg (src/main.py lines 38-43)

The filesystem check `os.path.isfile(BIN_FFMPEG_PATH)` and the outcome of the
`ffmpeg.exe -version` invocation are parameters.  The function body has no
try/except, so a raising invocation propagates to the caller; this is modelled
with `Except Unit`. -/

/-- Embedding of `find_ffmpeg`: returns the bundled path when it exists,
otherwise the bare command name when the version query exits with code 0,
otherwise `none`; an exception from the invocation propagates (`Except.error`). -/
def find_ffmpeg (bundled_exists : Bool) (version_run : RunResult) :
    Except Unit (Option Str) :=
  if bundled_exists then Except.ok (some BIN_FFMPEG_PATH)
  else
    match version_run with
    | RunResult.raised => Except.error ()
    | RunResult.completed rc _ =>
        if rc = 0 then Except.ok (some SYSTEM_FFMPEG_PATH) else Except.ok none

/-! ## get_ffmpeg_version (src/main.py lines 46-55) -/

/-- First line of a string, embedding `s.split('\n')[0]`. -/
def firstLine (s : Str) : Str := s.takeWhile (fun c => c ≠ '\n')

/-- The sentinel returned on failure, `"不明"` ("unknown"). -/
def UNKNOWN_VERSION : Str := "不明".toList

/-- Embedding of `get_ffmpeg_version`: first line of stdout when the exit code
is 0, and the sentinel `"不明"` when the exit code is nonzero or the invocation
raised (the body's try/except catches the exception). -/
def get_ffmpeg_version (version_run : RunResult) : Str :=
  match version_run with
  | RunResult.raised => UNKNOWN_VERSION
  | RunResult.completed rc out => if rc = 0 then firstLine out else UNKNOWN_VERSION

/-! ## is_nvenc_available (src/main.py lines 58-64) -/

/-- Boolean test that the first list starts with the second. -/
def startsWithList : Str → Str → Bool
  | _, [] => true
  | [], _ :: _ => false
  | c :: cs, d :: ds => c = d && startsWithList cs ds

/-- Boolean substring test, embedding Python's `needle in haystack`. -/
def containsSub (haystack needle : Str) : Bool :=
  match haystack with
  | [] => needle.isEmpty
  | _ :: rest => startsWithList haystack needle || containsSub rest needle

/-- Embedding of `is_nvenc_available`: true when the captured stdout of the
`-encoders` invocation contains `"h264_nvenc"`; false when the invocation
raised (caught by the body's try/except).  The exit code is not inspected. -/
def is_nvenc_available (encoders_run : RunResult) : Bool :=
  match encoders_run with
  | RunResult.raised => false
  | RunResult.completed _ out => containsSub out "h264_nvenc".toList

/-! ## clear_output_folder (src/main.py lines 67-70)

The output folder is modelled by its state: absent, or present with a list of
entries.  `shutil.rmtree` removes the folder, `os.makedirs` (without
`exist_ok`) creates it and raises if it already exists. -/

/-- State of the output folder on disk. -/
inductive FolderState : Type where
  | absent : FolderState
  | present (entries : List Str) : FolderState
deriving DecidableEq, Repr

/-- Embedding of `os.path.exists(OUTPUT_FOLDER)`. -/
def folderExists : FolderState → Bool
  | FolderState.absent => false
  | FolderState.present _ => true

/-- Embedding of `shutil.rmtree(OUTPUT_FOLDER)`: removes the folder and all
contents. -/
def rmtree : FolderState → FolderState := fun _ => FolderState.absent

/-- Embedding of `os.makedirs(OUTPUT_FOLDER)` without `exist_ok`: creates an
empty folder, raising if it already exists. -/
def makedirs : FolderState → Except Unit FolderState
  | FolderState.absent => Except.ok (FolderState.present [])
  | FolderState.present _ => Except.error ()

/-- Embedding of `clear_output_folder`: remove the folder if it exists, then
create it. -/
def clear_output_folder (st : FolderState) : Except Unit FolderState :=
  makedirs (if folderExists st then rmtree st else st)

/-! ## Python string helpers used by the prompts -/

/-- ASCII whitespace stripped by Python's `str.strip()`. -/
def isPySpace (c : Char) : Bool :=
  c = ' ' || c = '\t' || c = '\n' || c = '\x0d' || c = '\x0b' || c = '\x0c'

/-- Embedding of `str.strip()`: drop whitespace from both ends. -/
def pyStrip (s : Str) : Str :=
  ((s.dropWhile isPySpace).reverse.dropWhile isPySpace).reverse

/-- Embedding of `str.lower()` (ASCII case folding). -/
def pyLower (s : Str) : Str := s.map Char.toLower

/-- Test for an ASCII decimal digit. -/
def isAsciiDigit (c : Char) : Bool := '0' ≤ c && c ≤ '9'

/-- Numeric value of an ASCII decimal digit. -/
def digitVal (c : Char) : Nat := c.toNat - 48

/-- Digit-run parser for Python's `int()`: after an initial digit, digits may
continue, with single underscores allowed only between digits. -/
def parseDigitsCore (acc : Nat) : Str → Option Nat
  | [] => some acc
  | [c] => if isAsciiDigit c then some (10 * acc + digitVal c) else none
  | c :: c2 :: rest =>
      if isAsciiDigit c then parseDigitsCore (10 * acc + digitVal c) (c2 :: rest)
      else if c = '_' && isAsciiDigit c2 then
        parseDigitsCore (10 * acc + digitVal c2) rest
      else none

/-- Parse a nonempty run of ASCII digits (with single interior underscores);
the first character must be a digit. -/
def pyNatDigits : Str → Option Nat
  | [] => none
  | c :: rest => if isAsciiDigit c then parseDigitsCore 0 (c :: rest) else none

/-- Embedding of Python's `int(s)` on ASCII input: strip whitespace, accept an
optional single sign followed by a nonempty digit run, otherwise raise
`ValueError` (modelled as `none`). -/
def pyInt (s : Str) : Option Int :=
  match pyStrip s with
  | '+' :: rest => (pyNatDigits rest).map (fun n => (n : Int))
  | '-' :: rest => (pyNatDigits rest).map (fun n => -(n : Int))
  | rest => (pyNatDigits rest).map (fun n => (n : Int))

/-! ## get_target_height (src/main.py lines 125-134)

The prompt loop reads lines from standard input until `int()` succeeds.  The
stream of entered lines is a parameter; `none` models the loop never
returning because every entered line fails to parse. -/

/-- Embedding of `get_target_height`: return `int(line)` for the first line
accepted by `int()`, re-prompting (recursing) on each `ValueError`. -/
def get_target_height : List Str → Option Int
  | [] => none
  | s :: rest =>
      match pyInt s with
      | some n => some n
      | none => get_target_height rest

/-! ## Path manipulation (os.path, separator modelled as a forward slash) -/

/-- Index of the last occurrence of a character, embedding `str.rfind`
(with `none` for Python's `-1`). -/
def rfindIdx (c : Char) : Str → Option Nat
  | [] => none
  | x :: xs =>
      match rfindIdx c xs with
      | some i => some (i + 1)
      | none => if x = c then some 0 else none

/-- Embedding of `os.path.splitext`: split off the extension at the last dot
of the last path component, unless every character of the component before
that dot is itself a dot. -/
def splitext (p : Str) : Str × Str :=
  let start : Nat :=
    match rfindIdx '/' p with
    | none => 0
    | some s => s + 1
  match rfindIdx '.' p with
  | some d =>
      if start ≤ d ∧ ((p.drop start).take (d - start)).any (fun c => c != '.') then
        (p.take d, p.drop d)
      else (p, [])
  | none => (p, [])

/-- Embedding of two-argument `os.path.join`. -/
def joinPath (a b : Str) : Str :=
  if b.take 1 = ['/'] then b
  else if a = [] ∨ a.getLast? = some '/' then a ++ b
  else a ++ '/' :: b

/-- Modelled from the behaviour of `os.path.relpath` in the only case the
program exercises: the input path was produced by joining the input root with
a relative path strictly beneath it, and `relpath` then returns the portion
after the root and its separator. -/
def relpath (path start : Str) : Str := path.drop (start.length + 1)

/-- Rendering of the `target_height` argument inside the f-string
`f"{base}_{target_height}p{ext}"`; the Python default `None` prints as
`"None"`. -/
def thStr : Option Int → Str
  | none => "None".toList
  | some n => (toString n).toList

/-! ## get_output_path (src/main.py lines 83-92) -/

/-- Embedding of `get_output_path`: take the input path relative to the input
folder, split off the extension, rename per the mode, and join the result onto
the output folder. -/
def get_output_path (input_path input_folder output_folder : Str)
    (target_height : Option Int) (is_audio_only : Bool) : Str :=
  let relative_path := relpath input_path input_folder
  let pr := splitext relative_path
  let output_relative_path :=
    if is_audio_only then pr.1 ++ ".mp3".toList
    else pr.1 ++ '_' :: (thStr target_height ++ 'p' :: pr.2)
  joinPath output_folder output_relative_path

/-- Join a list of path segments with the separator. -/
def joinSegs : List Str → Str
  | [] => []
  | [s] => s
  | s :: s2 :: rest => s ++ '/' :: joinSegs (s2 :: rest)

/-! ## Directory trees and get_input_files (src/main.py lines 73-80)

A directory on disk is modelled as its list of regular-file names plus its
named subdirectories.  `os.walk` is top-down: it yields the directory's own
files first and then recurses into each subdirectory in order. -/

mutual
/-- A directory: regular-file names and named subdirectories. -/
inductive Dir : Type where
  | mk (files : List Str) (subdirs : Entries) : Dir
/-- The named subdirectories of a directory, in listing order. -/
inductive Entries : Type where
  | nil : Entries
  | cons (name : Str) (d : Dir) (rest : Entries) : Entries
end

/-- Embedding of the condition
`os.path.splitext(file)[1].lower() in SUPPORTED_FORMATS`. -/
def isSupported (f : Str) : Bool :=
  decide (pyLower (splitext f).2 ∈ SUPPORTED_FORMATS)

mutual
/-- Embedding of `get_input_files`: walk the tree top-down and collect
`os.path.join(root, file)` for every file whose extension matches. -/
def get_input_files (root : Str) : Dir → List Str
  | Dir.mk files subs =>
      (files.filter isSupported).map (fun f => joinPath root f) ++
        getFilesEntries root subs
/-- Walk of `get_input_files` over the subdirectory entries. -/
def getFilesEntries (root : Str) : Entries → List Str
  | Entries.nil => []
  | Entries.cons n d rest =>
      get_input_files (joinPath root n) d ++ getFilesEntries root rest
end

mutual
/-- Enumeration of every (directory path, file name) pair of the tree in
walk order, the ground truth that `get_input_files` filters. -/
def walkFiles (root : Str) : Dir → List (Str × Str)
  | Dir.mk files subs =>
      files.map (fun f => (root, f)) ++ walkFilesEntries root subs
/-- Enumeration of `walkFiles` over the subdirectory entries. -/
def walkFilesEntries (root : Str) : Entries → List (Str × Str)
  | Entries.nil => []
  | Entries.cons n d rest =>
      walkFiles (joinPath root n) d ++ walkFilesEntries root rest
end

/-- A usable file or directory name: nonempty and separator-free. -/
def goodName (s : Str) : Bool := decide (s ≠ [] ∧ '/' ∉ s)

/-- A clean directory path: nonempty and not ending in the separator. -/
def goodPath (p : Str) : Prop := p ≠ [] ∧ p.getLast? ≠ some '/'

instance goodPathDecidable (p : Str) : Decidable (goodPath p) := by
  unfold goodPath
  infer_instance

/-- The subdirectory names of an entry list. -/
def entryNames : Entries → List Str
  | Entries.nil => []
  | Entries.cons n _ rest => n :: entryNames rest

/-- The names of the immediate subdirectories of a directory. -/
def dirSubNames : Dir → List Str
  | Dir.mk _ subs => entryNames subs

/-- A small concrete directory tree used to instantiate the discovery
theorems: two files at the top level (one unsupported) and one supported file
with an uppercase extension in a subdirectory. -/
def sampleTree : Dir :=
  Dir.mk ["a.mp4".toList, "b.txt".toList]
    (Entries.cons ("sub".toList) (Dir.mk ["c.MKV".toList] Entries.nil)
      Entries.nil)

mutual
/-- Well-formedness of a directory tree as produced by a real filesystem:
names are usable and unique among siblings. -/
def wfDir : Dir → Bool
  | Dir.mk files subs =>
      files.all goodName && decide files.Nodup && wfEntries subs
/-- Well-formedness of an entry list. -/
def wfEntries : Entries → Bool
  | Entries.nil => true
  | Entries.cons n d rest =>
      goodName n && decide (n ∉ entryNames rest) && wfDir d && wfEntries rest
end

/-! ## Observable conversion events

A run's externally visible side effects on the output area are modelled as a
trace of events: the destructive output-area reset, and one conversion-process
invocation (`convert_video` / `extract_audio`) per file. -/

/-- Observable side effects of a run on the output area. -/
inductive Ev : Type where
  | clear : Ev
  | encode (file : Str) : Ev
deriving DecidableEq, Repr

/-! ## process_extract_audio (src/main.py lines 175-205) -/

/-- Embedding of the effect trace of `process_extract_audio`: when the
stripped, lowercased confirmation input is exactly `"y"` the function clears
the output folder and invokes `extract_audio` once per input file in order;
otherwise it returns immediately with no effects. -/
def process_extract_audio (user_input : Str) (input_files : List Str) : List Ev :=
  if pyLower (pyStrip user_input) = "y".toList then
    Ev.clear :: input_files.map Ev.encode
  else []

/-! ## process_convert_resolution (src/main.py lines 137-172) and main
(lines 208-245)

Only effects on the output area are traced: `Ev.clear` for
`clear_output_folder` and `Ev.encode` for each `convert_video` /
`extract_audio` invocation.  The capability probes (`-version`, `-encoders`)
and the non-destructive `os.makedirs(..., exist_ok=True)` calls touch no
output contents and are not trace events. -/

/-- Embedding of the effect trace of `process_convert_resolution`: the height
prompt runs first (an input stream on which `int()` never succeeds keeps the
loop prompting forever, so no effects happen), then the nvenc probe, then one
output-area clear, then one conversion per input file in order. -/
def process_convert_resolution (heightInputs : List Str)
    (input_files : List Str) : List Ev :=
  match get_target_height heightInputs with
  | none => []
  | some _ => Ev.clear :: input_files.map Ev.encode

/-- The run mode selected by `--mode`. -/
inductive Mode : Type where
  | convert : Mode
  | extract : Mode
deriving DecidableEq, Repr

/-- Embedding of the effect trace of `main`: locate the encoder (exiting with
no effects when it is absent or the locator raises), discover input files, and
return early with no effects when none are found; otherwise dispatch on the
mode. -/
def mainRun (bundled_exists : Bool) (version_run : RunResult) (tree : Dir)
    (mode : Mode) (heightInputs : List Str) (confirm_input : Str) : List Ev :=
  match find_ffmpeg bundled_exists version_run with
  | Except.error _ => []
  | Except.ok none => []
  | Except.ok (some _) =>
      if get_input_files INPUT_FOLDER tree = [] then []
      else
        match mode with
        | Mode.convert =>
            process_convert_resolution heightInputs
              (get_input_files INPUT_FOLDER tree)
        | Mode.extract =>
            process_extract_audio confirm_input
              (get_input_files INPUT_FOLDER tree)

end VideoConverter

namespace VideoConverter

/-- C8: `clear_output_folder` is idempotent in end-state: from every prior
state of the output folder (absent, present and empty, or present and
populated) it succeeds and leaves an existing, empty folder. -/
theorem C8_clear_output_folder_end_state (st : FolderState) :
    clear_output_folder st = Except.ok (FolderState.present []) := by
  cases st <;> rfl

/-- Characterization of `startsWithList` by an explicit suffix. -/
theorem startsWithList_iff (hay pre : Str) :
    startsWithList hay pre = true ↔ ∃ rest, hay = pre ++ rest := by
  induction hay generalizing pre with
  | nil =>
    cases pre with
    | nil => simp [startsWithList]
    | cons d ds => simp [startsWithList]
  | cons c cs ih =>
    cases pre with
    | nil => simp [startsWithList]
    | cons d ds =>
      simp only [startsWithList, Bool.and_eq_true, decide_eq_true_eq, ih,
        List.cons_append, List.cons.injEq]
      constructor
      · rintro ⟨rfl, rest, rfl⟩; exact ⟨rest, rfl, rfl⟩
      · rintro ⟨rest, rfl, rfl⟩; exact ⟨rfl, rest, rfl⟩

/-- Characterization of `containsSub` by an explicit decomposition. -/
theorem containsSub_iff (hay needle : Str) :
    containsSub hay needle = true ↔ ∃ pre post, hay = pre ++ needle ++ post := by
  induction hay with
  | nil =>
    simp only [containsSub, List.isEmpty_iff]
    constructor
    · rintro rfl; exact ⟨[], [], rfl⟩
    · rintro ⟨pre, post, h⟩
      rcases List.append_eq_nil.mp h.symm with ⟨h1, h2⟩
      exact (List.append_eq_nil.mp h1).2
  | cons c cs ih =>
    simp only [containsSub, Bool.or_eq_true, startsWithList_iff, ih]
    constructor
    · rintro (⟨rest, h⟩ | ⟨pre, post, h⟩)
      · exact ⟨[], rest, by simpa using h⟩
      · exact ⟨c :: pre, post, by simp [h]⟩
    · rintro ⟨pre, post, h⟩
      cases pre with
      | nil => exact Or.inl ⟨post, by simpa using h⟩
      | cons p ps =>
        right
        simp only [List.cons_append, List.cons.injEq, List.append_assoc] at h
        exact ⟨ps, post, by simp [h.2]⟩

/-- C9: `is_nvenc_available` returns true exactly when the captured stdout of
the encoders-listing invocation contains the substring `"h264_nvenc"`, and
returns false when the invocation raised; no failure propagates. -/
theorem C9_is_nvenc_available :
    (∀ (rc : Int) (out : Str),
        is_nvenc_available (RunResult.completed rc out) = true ↔
          ∃ pre post, out = pre ++ "h264_nvenc".toList ++ post) ∧
    is_nvenc_available RunResult.raised = false := by
  refine ⟨fun rc out => ?_, rfl⟩
  simpa [is_nvenc_available] using containsSub_iff out ("h264_nvenc".toList)

/-- Closed instantiation of the C9 theorem at a concrete invocation outcome. -/
theorem C9_is_nvenc_available_witness :
    is_nvenc_available (RunResult.completed 0 ("Encoders: h264_nvenc ok".toList)) = true :=
  (C9_is_nvenc_available.1 0 _).mpr
    ⟨"Encoders: ".toList, " ok".toList, by decide⟩

/-- C5 counterexample: when the version query exits with code 0 but produces
empty stdout, `get_ffmpeg_version` returns the empty string, not the
sentinel. -/
theorem C5_counterexample_empty_stdout :
    get_ffmpeg_version (RunResult.completed 0 []) = [] ∧
      ([] : Str) ≠ UNKNOWN_VERSION := by
  exact ⟨rfl, by decide⟩

/-- C5 (amended): `get_ffmpeg_version` returns the first line of stdout
whenever the invocation completes with exit code 0 (the empty string when
stdout is empty), and returns the sentinel `"不明"` whenever the exit code is
nonzero or the invocation raised; it never propagates a failure.  The first
line of `l ++ '\n' :: r` with `l` newline-free is `l`. -/
theorem C5_get_ffmpeg_version_amended :
    (∀ out : Str, get_ffmpeg_version (RunResult.completed 0 out) = firstLine out) ∧
    (∀ (rc : Int) (out : Str), rc ≠ 0 →
        get_ffmpeg_version (RunResult.completed rc out) = UNKNOWN_VERSION) ∧
    get_ffmpeg_version RunResult.raised = UNKNOWN_VERSION ∧
    (∀ l r : Str, '\n' ∉ l → firstLine (l ++ '\n' :: r) = l) := by
  refine ⟨fun out => rfl, fun rc out h => by simp [get_ffmpeg_version, h], rfl,
    fun l r hl => ?_⟩
  induction l with
  | nil => simp [firstLine]
  | cons c cs ih =>
    have hc : c ≠ '\n' := fun h => hl (h ▸ List.mem_cons_self c cs)
    have hcs : '\n' ∉ cs := fun h => hl (List.mem_cons_of_mem c h)
    simp [firstLine, hc, List.takeWhile_cons] at ih ⊢
    exact ih hcs

/-- Closed instantiation of the amended C5 theorem at concrete outcomes. -/
theorem C5_get_ffmpeg_version_witness :
    get_ffmpeg_version (RunResult.completed 1 ("oops".toList)) = UNKNOWN_VERSION ∧
      firstLine ("ffmpeg version 6.0".toList ++ '\n' :: "more".toList) =
        "ffmpeg version 6.0".toList :=
  ⟨C5_get_ffmpeg_version_amended.2.1 1 ("oops".toList) (by decide),
   C5_get_ffmpeg_version_amended.2.2.2 ("ffmpeg version 6.0".toList)
     ("more".toList) (by decide)⟩

/-- C4 counterexample: when the bundled binary is absent and the version-query
invocation raises (the executable is not on the search path),
`find_ffmpeg` propagates the exception instead of returning `None`. -/
theorem C4_counterexample_raises :
    find_ffmpeg false RunResult.raised = Except.error () ∧
      find_ffmpeg false RunResult.raised ≠ Except.ok none := by
  refine ⟨rfl, fun h => ?_⟩
  simp [find_ffmpeg] at h

/-- C4 (amended): `find_ffmpeg` returns the bundled path when the bundled
binary exists; otherwise returns the bare command name when the version query
completes with exit code 0, and `None` when it completes with a nonzero exit
code; but when the invocation itself raises, the exception propagates to the
caller instead of `None` being returned. -/
theorem C4_find_ffmpeg_amended :
    (∀ r : RunResult, find_ffmpeg true r = Except.ok (some BIN_FFMPEG_PATH)) ∧
    (∀ out : Str,
        find_ffmpeg false (RunResult.completed 0 out) =
          Except.ok (some SYSTEM_FFMPEG_PATH)) ∧
    (∀ (rc : Int) (out : Str), rc ≠ 0 →
        find_ffmpeg false (RunResult.completed rc out) = Except.ok none) ∧
    find_ffmpeg false RunResult.raised = Except.error () := by
  exact ⟨fun r => rfl, fun out => rfl,
    fun rc out h => by simp [find_ffmpeg, h], rfl⟩

/-- Closed instantiation of the amended C4 theorem at concrete outcomes. -/
theorem C4_find_ffmpeg_witness :
    find_ffmpeg false (RunResult.completed 1 []) = Except.ok none :=
  C4_find_ffmpeg_amended.2.2.1 1 [] (by decide)

/-- C1 counterexample: the input `"-5"` parses as an integer, is accepted by
the prompt loop on first try, and the returned value is not positive; the
loop enforces no positivity. -/
theorem C1_counterexample_negative_height :
    get_target_height ["-5".toList] = some (-5) ∧ ¬ (0 < (-5 : Int)) := by
  exact ⟨by decide, by decide⟩

/-- C1 (amended): `get_target_height` returns `n` exactly when some entered
line parses as the integer `n` under Python's `int()` and every earlier line
fails to parse (each failure re-prompts); the returned integer may be zero or
negative, positivity is not checked.  On the spec's example stream
`"abc"`, `"-"`, `"480"`, only `"480"` is accepted and `480` is returned. -/
theorem C1_get_target_height_amended :
    (∀ (inputs : List Str) (n : Int),
        get_target_height inputs = some n ↔
          ∃ pre s post, inputs = pre ++ s :: post ∧
            (∀ t ∈ pre, pyInt t = none) ∧ pyInt s = some n) ∧
    pyInt ("abc".toList) = none ∧ pyInt ("-".toList) = none ∧
    get_target_height ["abc".toList, "-".toList, "480".toList] = some 480 := by
  refine ⟨fun inputs n => ?_, by decide, by decide, by decide⟩
  induction inputs with
  | nil =>
    simp only [get_target_height]
    constructor
    · intro h; exact Option.noConfusion h
    · rintro ⟨pre, s, post, h, -⟩
      exact absurd h (by simp)
  | cons s0 rest ih =>
    simp only [get_target_height]
    cases hps : pyInt s0 with
    | some m =>
      constructor
      · intro h
        refine ⟨[], s0, rest, rfl, by simp, ?_⟩
        rw [hps]
        exact h
      · rintro ⟨pre, s, post, hdec, hpre, hs⟩
        cases pre with
        | nil =>
          simp only [List.nil_append, List.cons.injEq] at hdec
          rw [hdec.1] at hps
          exact hps.symm.trans hs
        | cons t pre2 =>
          simp only [List.cons_append, List.cons.injEq] at hdec
          have hnone : pyInt s0 = none := by
            rw [hdec.1]
            exact hpre t (List.mem_cons_self t pre2)
          exact absurd hps (by simp [hnone])
    | none =>
      constructor
      · intro h
        rcases ih.mp h with ⟨pre, s, post, hdec, hpre, hs⟩
        refine ⟨s0 :: pre, s, post, by simp [hdec], ?_, hs⟩
        intro t ht
        rcases List.mem_cons.mp ht with h1 | h2
        · exact h1 ▸ hps
        · exact hpre t h2
      · rintro ⟨pre, s, post, hdec, hpre, hs⟩
        cases pre with
        | nil =>
          simp only [List.nil_append, List.cons.injEq] at hdec
          have : pyInt s0 = some n := by rw [hdec.1]; exact hs
          exact absurd this (by simp [hps])
        | cons t pre2 =>
          simp only [List.cons_append, List.cons.injEq] at hdec
          exact ih.mpr ⟨pre2, s, post, hdec.2,
            fun u hu => hpre u (List.mem_cons_of_mem t hu), hs⟩

/-- Closed instantiation of the amended C1 theorem: a non-numeric line is
skipped and the following numeric line is returned. -/
theorem C1_get_target_height_witness :
    get_target_height ["x1".toList, "720".toList] = some 720 :=
  (C1_get_target_height_amended.1 ["x1".toList, "720".toList] 720).mpr
    ⟨["x1".toList], "720".toList, [], rfl, by decide, by decide⟩

/-- C7: the audio-extract run proceeds (produces any effects) exactly when
the confirmation input, stripped and lowercased, is `"y"`; on every declining
input there is no output-area reset and no conversion invocation.  The spec's
examples: `"Y"`, `" y "`, `"y"` proceed; `"n"`, `""`, `"yes"` decline. -/
theorem C7_extract_confirmation :
    (∀ (s : Str) (files : List Str),
        process_extract_audio s files ≠ [] ↔ pyLower (pyStrip s) = "y".toList) ∧
    (∀ (s : Str) (files : List Str), pyLower (pyStrip s) ≠ "y".toList →
        process_extract_audio s files = []) ∧
    (∀ files : List Str,
        process_extract_audio ("Y".toList) files = Ev.clear :: files.map Ev.encode) ∧
    (∀ files : List Str,
        process_extract_audio (" y ".toList) files = Ev.clear :: files.map Ev.encode) ∧
    (∀ files : List Str,
        process_extract_audio ("y".toList) files = Ev.clear :: files.map Ev.encode) ∧
    (∀ files : List Str, process_extract_audio ("n".toList) files = []) ∧
    (∀ files : List Str, process_extract_audio ([] : Str) files = []) ∧
    (∀ files : List Str, process_extract_audio ("yes".toList) files = []) := by
  refine ⟨fun s files => ?_,
    fun s files h => by unfold process_extract_audio; rw [if_neg h],
    fun files => by unfold process_extract_audio; rw [if_pos (by decide)],
    fun files => by unfold process_extract_audio; rw [if_pos (by decide)],
    fun files => by unfold process_extract_audio; rw [if_pos (by decide)],
    fun files => by unfold process_extract_audio; rw [if_neg (by decide)],
    fun files => by unfold process_extract_audio; rw [if_neg (by decide)],
    fun files => by unfold process_extract_audio; rw [if_neg (by decide)]⟩
  unfold process_extract_audio
  by_cases h : pyLower (pyStrip s) = "y".toList <;> simp [h]

/-- Closed instantiation of the C7 theorem: the declining input `"n"` yields
no effects. -/
theorem C7_extract_confirmation_witness :
    process_extract_audio ("n".toList) ["a.mp4".toList] = [] :=
  C7_extract_confirmation.2.1 ("n".toList) ["a.mp4".toList] (by decide)

/-- A character absent from a list is not found by `rfindIdx`. -/
theorem rfindIdx_eq_none {c : Char} {s : Str} (h : c ∉ s) : rfindIdx c s = none := by
  induction s with
  | nil => rfl
  | cons x xs ih =>
    have hx : x ≠ c := fun he => h (he ▸ List.mem_cons_self x xs)
    have hxs : c ∉ xs := fun hm => h (List.mem_cons_of_mem x hm)
    simp [rfindIdx, ih hxs, hx]

/-- An index returned by `rfindIdx` is within bounds. -/
theorem rfindIdx_lt_length {c : Char} {s : Str} {i : Nat}
    (h : rfindIdx c s = some i) : i < s.length := by
  induction s generalizing i with
  | nil => exact Option.noConfusion h
  | cons x xs ih =>
    simp only [rfindIdx] at h
    cases hx : rfindIdx c xs with
    | some j =>
      rw [hx] at h
      cases h
      exact Nat.succ_lt_succ (ih hx)
    | none =>
      rw [hx] at h
      by_cases hxc : x = c
      · simp [hxc] at h
        simp [← h]
      · simp [hxc] at h

/-- Last occurrence in an append when the suffix has none. -/
theorem rfindIdx_append_of_none (c : Char) (xs : Str) {ys : Str}
    (h : rfindIdx c ys = none) : rfindIdx c (xs ++ ys) = rfindIdx c xs := by
  induction xs with
  | nil => simpa using h
  | cons x xs2 ih => simp [rfindIdx, ih]

/-- Last occurrence in an append when the suffix has one. -/
theorem rfindIdx_append_of_some (c : Char) (xs : Str) {ys : Str} {i : Nat}
    (h : rfindIdx c ys = some i) :
    rfindIdx c (xs ++ ys) = some (xs.length + i) := by
  induction xs with
  | nil => simpa using h
  | cons x xs2 ih =>
    rw [List.cons_append, rfindIdx, ih]
    simp only [List.length_cons]
    exact congrArg some (by omega)

/-- Last occurrence of the separator in a path whose final component is
separator-free. -/
theorem rfindIdx_last_sep (c : Char) (d : Str) {n : Str} (hn : c ∉ n) :
    rfindIdx c (d ++ c :: n) = some d.length := by
  have h1 : rfindIdx c (c :: n) = some 0 := by
    simp [rfindIdx, rfindIdx_eq_none hn]
  simpa using rfindIdx_append_of_some c d h1

/-- Splitting the extension off a path whose final component `n` is
separator-free reduces to splitting `n`: the directory part passes through
unchanged. -/
theorem splitext_sep (d : Str) {n : Str} (hn : '/' ∉ n) :
    splitext (d ++ '/' :: n) = (d ++ '/' :: (splitext n).1, (splitext n).2) := by
  have hsep : rfindIdx '/' (d ++ '/' :: n) = some d.length :=
    rfindIdx_last_sep '/' d hn
  have hsepn : rfindIdx '/' n = none := rfindIdx_eq_none hn
  cases hdot : rfindIdx '.' n with
  | none =>
    have h1 : rfindIdx '.' ('/' :: n) = none := by simp [rfindIdx, hdot]
    have h2 : rfindIdx '.' (d ++ '/' :: n) = rfindIdx '.' d :=
      rfindIdx_append_of_none '.' d h1
    cases hdd : rfindIdx '.' d with
    | none => simp [splitext, hsep, hsepn, h2, hdd, hdot]
    | some j =>
      have hj : j < d.length := rfindIdx_lt_length hdd
      have hcond : ¬ (d.length + 1 ≤ j) := by omega
      simp [splitext, hsep, hsepn, h2, hdd, hdot, hcond]
  | some i =>
    have h1 : rfindIdx '.' ('/' :: n) = some (i + 1) := by simp [rfindIdx, hdot]
    have h2 : rfindIdx '.' (d ++ '/' :: n) = some (d.length + (i + 1)) :=
      rfindIdx_append_of_some '.' d h1
    have hdrop : (d ++ '/' :: n).drop (d.length + 1) = n := by
      simpa using @List.drop_append _ d ('/' :: n) 1
    have hle : d.length + 1 ≤ d.length + (i + 1) := by omega
    have hsub : d.length + (i + 1) - (d.length + 1) = i := by omega
    by_cases hany : (n.take i).any (fun c => c != '.') = true
    · have htake : (d ++ '/' :: n).take (d.length + (i + 1)) = d ++ '/' :: n.take i := by
        simpa using @List.take_append _ d ('/' :: n) (i + 1)
      have hdropd : (d ++ '/' :: n).drop (d.length + (i + 1)) = n.drop i := by
        simpa using @List.drop_append _ d ('/' :: n) (i + 1)
      simp [splitext, hsep, hsepn, h2, hdot, hdrop, hle, hsub, hany, htake, hdropd]
    · simp [splitext, hsep, hsepn, h2, hdot, hdrop, hle, hsub, hany]

/-- A single segment joins to itself. -/
theorem joinSegs_singleton (x : Str) : joinSegs [x] = x := rfl

/-- Appending a final segment to a nonempty segment list joins with one
separator. -/
theorem joinSegs_append_last (segs : List Str) (x : Str) (h : segs ≠ []) :
    joinSegs (segs ++ [x]) = joinSegs segs ++ '/' :: x := by
  induction segs with
  | nil => exact absurd rfl h
  | cons s rest ih =>
    cases rest with
    | nil => rfl
    | cons s2 r2 =>
      show s ++ '/' :: joinSegs ((s2 :: r2) ++ [x]) =
        (s ++ '/' :: joinSegs (s2 :: r2)) ++ '/' :: x
      rw [ih (by simp)]
      simp

/-- Joining onto a clean directory path inserts exactly one separator. -/
theorem joinPath_eq (a b : Str) (ha1 : a ≠ []) (ha2 : a.getLast? ≠ some '/')
    (hb : b.take 1 ≠ ['/']) : joinPath a b = a ++ '/' :: b := by
  unfold joinPath
  rw [if_neg hb, if_neg (fun hor => hor.elim ha1 ha2)]

/-- Zeta-expanded form of the `splitext` definition. -/
theorem splitext_def (q : Str) :
    splitext q =
      (match rfindIdx '.' q with
       | some d =>
           if (match rfindIdx '/' q with | none => 0 | some s => s + 1) ≤ d ∧
               ((q.drop (match rfindIdx '/' q with | none => 0 | some s => s + 1)).take
                 (d - (match rfindIdx '/' q with | none => 0 | some s => s + 1))).any
                   (fun c => c != '.') then
             (q.take d, q.drop d)
           else (q, [])
       | none => (q, [])) := rfl

/-- The result of `splitext` is either the whole path with an empty extension,
or a split at an index of at least one. -/
theorem splitext_cases (q : Str) :
    splitext q = (q, []) ∨ ∃ dd, 1 ≤ dd ∧ splitext q = (q.take dd, q.drop dd) := by
  cases hdot : rfindIdx '.' q with
  | none =>
    left
    simp [splitext_def, hdot]
  | some dd =>
    simp only [splitext_def, hdot]
    by_cases hc : (match rfindIdx '/' q with | none => 0 | some s => s + 1) ≤ dd ∧
        ((q.drop (match rfindIdx '/' q with | none => 0 | some s => s + 1)).take
          (dd - (match rfindIdx '/' q with | none => 0 | some s => s + 1))).any
            (fun c => c != '.') = true
    · rw [if_pos hc]
      refine Or.inr ⟨dd, ?_, rfl⟩
      rcases hc with ⟨h1, h2⟩
      rcases List.any_eq_true.mp h2 with ⟨c, hc2, -⟩
      by_cases h0 : dd - (match rfindIdx '/' q with | none => 0 | some s => s + 1) = 0
      · rw [h0] at hc2
        simp at hc2
      · omega
    · rw [if_neg hc]
      exact Or.inl rfl

/-- The base part of `splitext` is nonempty and begins with the same character
as the input. -/
theorem splitext_head (q : Str) (hq : q ≠ []) :
    (splitext q).1 ≠ [] ∧ (splitext q).1.take 1 = q.take 1 := by
  rcases splitext_cases q with h | ⟨dd, hdd, h⟩
  · rw [h]
    exact ⟨hq, rfl⟩
  · rw [h]
    constructor
    · intro h0
      rcases List.take_eq_nil_iff.mp h0 with h1 | h1
      · omega
      · exact hq h1
    · rw [List.take_take]
      rw [Nat.min_eq_left hdd]

/-- Taking one character of an append with a nonempty left part. -/
theorem take_one_append (l t : Str) (hl : l ≠ []) : (l ++ t).take 1 = l.take 1 := by
  cases l with
  | nil => exact absurd rfl hl
  | cons c cs => rfl

/-- A nonempty separator-free string does not begin with the separator. -/
theorem take_one_ne_sep (l : Str) (hl : l ≠ []) (hs : '/' ∉ l) :
    l.take 1 ≠ ['/'] := by
  cases l with
  | nil => exact absurd rfl hl
  | cons c cs =>
    intro h
    simp only [List.take_succ_cons, List.take_zero, List.cons.injEq] at h
    exact hs (h.1 ▸ List.mem_cons_self c cs)

/-- A joined nonempty segment list is nonempty and begins like its first
segment. -/
theorem joinSegs_cons_head (s0 : Str) (r : List Str) (hs : s0 ≠ []) :
    joinSegs (s0 :: r) ≠ [] ∧ (joinSegs (s0 :: r)).take 1 = s0.take 1 := by
  cases r with
  | nil => exact ⟨hs, rfl⟩
  | cons s2 r2 =>
    constructor
    · simp [joinSegs]
    · exact take_one_append s0 _ hs

/-- A run's effect trace is either empty or a single output-area clear
followed only by conversion invocations, the latter only when discovery found
at least one input file. -/
theorem mainRun_shape (b : Bool) (vr : RunResult) (tree : Dir) (mode : Mode)
    (hi : List Str) (ci : Str) :
    mainRun b vr tree mode hi ci = [] ∨
      (get_input_files INPUT_FOLDER tree ≠ [] ∧
        ∃ fs : List Str,
          mainRun b vr tree mode hi ci = Ev.clear :: fs.map Ev.encode) := by
  unfold mainRun
  cases hf : find_ffmpeg b vr with
  | error e => exact Or.inl rfl
  | ok o =>
    cases o with
    | none => exact Or.inl rfl
    | some path =>
      by_cases hfs : get_input_files INPUT_FOLDER tree = []
      · rw [if_pos hfs]
        exact Or.inl rfl
      · rw [if_neg hfs]
        cases mode with
        | convert =>
          unfold process_convert_resolution
          cases hth : get_target_height hi with
          | none => exact Or.inl rfl
          | some v => exact Or.inr ⟨hfs, _, rfl⟩
        | extract =>
          unfold process_extract_audio
          by_cases hc : pyLower (pyStrip ci) = "y".toList
          · rw [if_pos hc]
            exact Or.inr ⟨hfs, _, rfl⟩
          · rw [if_neg hc]
            exact Or.inl rfl

/-- C6: in every run, the destructive output-area reset occurs at most once in
the effect trace, strictly before every conversion invocation, and only when
input discovery found at least one file; when the input tree yields no
matching files the trace is empty: no conversion is invoked and the output
area is untouched. -/
theorem C6_output_reset_ordering (b : Bool) (vr : RunResult) (tree : Dir)
    (mode : Mode) (hi : List Str) (ci : Str) :
    (mainRun b vr tree mode hi ci).count Ev.clear ≤ 1 ∧
    (∀ i j : Nat,
        (mainRun b vr tree mode hi ci)[i]? = some Ev.clear →
        (∃ f, (mainRun b vr tree mode hi ci)[j]? = some (Ev.encode f)) →
        i < j) ∧
    (Ev.clear ∈ mainRun b vr tree mode hi ci →
        get_input_files INPUT_FOLDER tree ≠ []) ∧
    (get_input_files INPUT_FOLDER tree = [] →
        mainRun b vr tree mode hi ci = []) := by
  have hempty : get_input_files INPUT_FOLDER tree = [] →
      mainRun b vr tree mode hi ci = [] := by
    intro he
    unfold mainRun
    cases hf : find_ffmpeg b vr with
    | error e => rfl
    | ok o =>
      cases o with
      | none => rfl
      | some path => rw [if_pos he]
  rcases mainRun_shape b vr tree mode hi ci with h | ⟨hne, fs, h⟩
  · refine ⟨by simp [h], ?_, by simp [h], fun _ => h⟩
    intro i j hic hjc
    rw [h] at hic
    exact absurd hic (by simp)
  · have hnc : Ev.clear ∉ fs.map Ev.encode := by simp
    refine ⟨?_, ?_, fun _ => hne, fun hemp => absurd hemp hne⟩
    · rw [h]
      simp [List.count_cons, List.count_eq_zero.mpr hnc]
    · intro i j hic hjc
      rcases hjc with ⟨f, hjf⟩
      rw [h] at hic hjf
      cases i with
      | zero =>
        cases j with
        | zero => simp at hjf
        | succ jj => omega
      | succ ii =>
        exfalso
        rw [List.getElem?_cons_succ, List.getElem?_map] at hic
        cases hfi : fs[ii]? with
        | none => rw [hfi] at hic; exact Option.noConfusion hic
        | some g =>
          rw [hfi] at hic
          simp at hic

/-- Closed instantiation of the C6 theorem: a run over an empty input tree
produces no effects at all. -/
theorem C6_output_reset_ordering_witness :
    mainRun true (RunResult.completed 0 []) (Dir.mk [] Entries.nil)
      Mode.convert [] [] = [] :=
  (C6_output_reset_ordering true (RunResult.completed 0 [])
    (Dir.mk [] Entries.nil) Mode.convert [] []).2.2.2 (by decide)

example : splitext ("a/b/c.mp4".toList) = ("a/b/c".toList, ".mp4".toList) := by decide
example : splitext (".bashrc".toList) = (".bashrc".toList, ([] : Str)) := by decide
example : splitext ("a.b/c".toList) = ("a.b/c".toList, ([] : Str)) := by decide
example : splitext ("..a.b".toList) = ("..a".toList, ".b".toList) := by decide
example : get_output_path ("01.入力/a/b.mp4".toList) INPUT_FOLDER OUTPUT_FOLDER
    (some 480) false = "02.出力/a/b_480p.mp4".toList := by decide
example : get_output_path ("01.入力/b.mkv".toList) INPUT_FOLDER OUTPUT_FOLDER
    none true = "02.出力/b.mp3".toList := by decide

/-- Unfolding of the Boolean `goodName` check. -/
theorem goodName_iff {s : Str} : goodName s = true ↔ s ≠ [] ∧ '/' ∉ s := by
  simp [goodName]

/-- Cancelling the final separator-free components of two path strings. -/
theorem last_sep_inj {a₁ a₂ b₁ b₂ : Str} (h1 : '/' ∉ b₁) (h2 : '/' ∉ b₂)
    (heq : a₁ ++ '/' :: b₁ = a₂ ++ '/' :: b₂) : a₁ = a₂ ∧ b₁ = b₂ := by
  induction a₁ generalizing a₂ with
  | nil =>
    cases a₂ with
    | nil => simpa using heq
    | cons c t =>
      exfalso
      simp only [List.nil_append, List.cons_append, List.cons.injEq] at heq
      exact h1 (heq.2 ▸ List.mem_append_right t (List.mem_cons_self '/' b₂))
  | cons c t ih =>
    cases a₂ with
    | nil =>
      exfalso
      simp only [List.nil_append, List.cons_append, List.cons.injEq] at heq
      exact h2 (heq.2 ▸ List.mem_append_right t (List.mem_cons_self '/' b₁))
    | cons c₂ t₂ =>
      simp only [List.cons_append, List.cons.injEq] at heq
      exact ⟨by rw [heq.1, (ih heq.2).1], (ih heq.2).2⟩

/-- Two walk paths that extend distinct sibling names cannot coincide: the
sibling name is recovered as the part before the next separator. -/
theorem seg_append_inj {n₁ n₂ t₁ t₂ : Str} (h1 : '/' ∉ n₁) (h2 : '/' ∉ n₂)
    (e1 : t₁ = [] ∨ t₁.take 1 = ['/']) (e2 : t₂ = [] ∨ t₂.take 1 = ['/'])
    (heq : n₁ ++ t₁ = n₂ ++ t₂) : n₁ = n₂ := by
  induction n₁ generalizing n₂ with
  | nil =>
    cases n₂ with
    | nil => rfl
    | cons c m =>
      exfalso
      simp only [List.nil_append, List.cons_append] at heq
      rcases e1 with he | he
      · rw [he] at heq
        exact List.noConfusion heq.symm
      · rw [heq] at he
        simp only [List.take_succ_cons, List.take_zero, List.cons.injEq] at he
        exact h2 (he.1 ▸ List.mem_cons_self c m)
  | cons c m ih =>
    cases n₂ with
    | nil =>
      exfalso
      simp only [List.nil_append, List.cons_append] at heq
      rcases e2 with he | he
      · rw [he] at heq
        exact List.noConfusion heq
      · rw [← heq] at he
        simp only [List.take_succ_cons, List.take_zero, List.cons.injEq] at he
        exact h1 (he.1 ▸ List.mem_cons_self c m)
    | cons c₂ m₂ =>
      simp only [List.cons_append, List.cons.injEq] at heq
      rw [heq.1, ih (fun hm => h1 (List.mem_cons_of_mem c hm))
        (fun hm => h2 (List.mem_cons_of_mem c₂ hm)) heq.2]

/-- Joining a usable name onto a clean path inserts one separator and yields a
clean path again. -/
theorem joinPath_good {p n : Str} (hp : goodPath p) (hn : goodName n = true) :
    joinPath p n = p ++ '/' :: n ∧ goodPath (p ++ '/' :: n) := by
  rcases goodName_iff.mp hn with ⟨hn1, hn2⟩
  refine ⟨joinPath_eq p n hp.1 hp.2 (take_one_ne_sep n hn1 hn2), by simp, ?_⟩
  rw [List.getLast?_append_cons]
  cases n with
  | nil => exact absurd rfl hn1
  | cons c m =>
    rw [List.getLast?_cons_cons]
    intro hc
    exact hn2 (List.mem_of_mem_getLast? (Option.mem_def.mpr hc))

mutual
/-- The discovered files are exactly the walk enumeration filtered on the
extension whitelist and joined, in walk order. -/
theorem get_input_files_eq (p : Str) (d : Dir) :
    get_input_files p d =
      ((walkFiles p d).filter (fun q => isSupported q.2)).map
        (fun q => joinPath q.1 q.2) := by
  cases d with
  | mk files subs =>
    simp only [get_input_files, walkFiles, List.filter_append, List.map_append]
    rw [getFilesEntries_eq p subs, List.filter_map, List.map_map]
    rfl
/-- Entry-list version of `get_input_files_eq`. -/
theorem getFilesEntries_eq (p : Str) (e : Entries) :
    getFilesEntries p e =
      ((walkFilesEntries p e).filter (fun q => isSupported q.2)).map
        (fun q => joinPath q.1 q.2) := by
  cases e with
  | nil => rfl
  | cons n d rest =>
    simp only [getFilesEntries, walkFilesEntries, List.filter_append,
      List.map_append]
    rw [get_input_files_eq (joinPath p n) d, getFilesEntries_eq p rest]
end

mutual
/-- Every pair of the walk enumeration has a clean directory path and a usable
file name. -/
theorem walkFiles_good (p : Str) (d : Dir) (hp : goodPath p)
    (hwf : wfDir d = true) :
    ∀ q f, (q, f) ∈ walkFiles p d → goodPath q ∧ goodName f = true := by
  cases d with
  | mk files subs =>
    intro q f hm
    simp only [wfDir, Bool.and_eq_true] at hwf
    simp only [walkFiles] at hm
    rcases List.mem_append.mp hm with h | h
    · rcases List.mem_map.mp h with ⟨g, hg, hpair⟩
      rcases Prod.mk.injEq .. ▸ hpair with ⟨hq, hf⟩
      rw [← hq, ← hf]
      exact ⟨hp, List.all_eq_true.mp hwf.1.1 g hg⟩
    · exact walkFilesEntries_good p subs hp hwf.2 q f h
/-- Entry-list version of `walkFiles_good`. -/
theorem walkFilesEntries_good (p : Str) (e : Entries) (hp : goodPath p)
    (hwf : wfEntries e = true) :
    ∀ q f, (q, f) ∈ walkFilesEntries p e → goodPath q ∧ goodName f = true := by
  cases e with
  | nil => intro q f hm; exact absurd hm (by simp [walkFilesEntries])
  | cons n d rest =>
    intro q f hm
    simp only [wfEntries, Bool.and_eq_true] at hwf
    have hjg := joinPath_good hp hwf.1.1.1
    simp only [walkFilesEntries] at hm
    rcases List.mem_append.mp hm with h | h
    · rw [hjg.1] at h
      exact walkFiles_good _ d hjg.2 hwf.1.2 q f h
    · exact walkFilesEntries_good p rest hp hwf.2 q f h
end

/-- All subdirectory names of a well-formed entry list are usable. -/
theorem entryNames_good (e : Entries) (hwf : wfEntries e = true) :
    ∀ n ∈ entryNames e, goodName n = true := by
  cases e with
  | nil => simp [entryNames]
  | cons n d rest =>
    simp only [wfEntries, Bool.and_eq_true] at hwf
    intro m hm
    rcases List.mem_cons.mp hm with h | h
    · exact h ▸ hwf.1.1.1
    · exact entryNames_good rest hwf.2 m h

mutual
/-- Every directory path in the walk of a tree is the root itself (for the
root's own files) or extends the root with a separator, the name of one of the
root's immediate subdirectories, and a further extension that is empty or
separator-headed. -/
theorem walkFiles_shape (p : Str) (d : Dir) (hp : goodPath p)
    (hwf : wfDir d = true) :
    ∀ q f, (q, f) ∈ walkFiles p d →
      q = p ∨ ∃ n t, n ∈ dirSubNames d ∧ q = p ++ '/' :: (n ++ t) ∧
        (t = [] ∨ t.take 1 = ['/']) := by
  cases d with
  | mk files subs =>
    intro q f hm
    simp only [wfDir, Bool.and_eq_true] at hwf
    simp only [walkFiles] at hm
    rcases List.mem_append.mp hm with h | h
    · left
      rcases List.mem_map.mp h with ⟨g, hg, hpair⟩
      exact (Prod.mk.injEq .. ▸ hpair).1.symm
    · right
      exact walkFilesEntries_shape p subs hp hwf.2 q f h
/-- Entry-list version of `walkFiles_shape`. -/
theorem walkFilesEntries_shape (p : Str) (e : Entries) (hp : goodPath p)
    (hwf : wfEntries e = true) :
    ∀ q f, (q, f) ∈ walkFilesEntries p e →
      ∃ n t, n ∈ entryNames e ∧ q = p ++ '/' :: (n ++ t) ∧
        (t = [] ∨ t.take 1 = ['/']) := by
  cases e with
  | nil => intro q f hm; exact absurd hm (by simp [walkFilesEntries])
  | cons n d rest =>
    intro q f hm
    simp only [wfEntries, Bool.and_eq_true] at hwf
    have hjg := joinPath_good hp hwf.1.1.1
    simp only [walkFilesEntries] at hm
    rcases List.mem_append.mp hm with h | h
    · rw [hjg.1] at h
      rcases walkFiles_shape _ d hjg.2 hwf.1.2 q f h with h2 | ⟨n2, t2, _, h2, he2⟩
      · exact ⟨n, [], List.mem_cons_self n _, by simpa using h2, Or.inl rfl⟩
      · refine ⟨n, '/' :: (n2 ++ t2), List.mem_cons_self n _, ?_, Or.inr rfl⟩
        rw [h2]
        simp
    · rcases walkFilesEntries_shape p rest hp hwf.2 q f h with ⟨n2, t2, hn2, h2, he2⟩
      exact ⟨n2, t2, List.mem_cons_of_mem n hn2, h2, he2⟩
end

mutual
/-- The walk enumeration of a well-formed tree lists each (directory, file)
pair at most once. -/
theorem walkFiles_nodup (p : Str) (d : Dir) (hp : goodPath p)
    (hwf : wfDir d = true) : (walkFiles p d).Nodup := by
  cases d with
  | mk files subs =>
    simp only [wfDir, Bool.and_eq_true] at hwf
    simp only [walkFiles]
    refine List.Nodup.append ?_ (walkFilesEntries_nodup p subs hp hwf.2) ?_
    · exact (of_decide_eq_true hwf.1.2).map
        (fun a b hab => congrArg Prod.snd hab)
    · intro x hx hx2
      rcases List.mem_map.mp hx with ⟨g, hg, hpair⟩
      rw [← hpair] at hx2
      rcases walkFilesEntries_shape p subs hp hwf.2 p g hx2 with ⟨n, t, _, heq, -⟩
      have hlen := congrArg List.length heq
      simp at hlen
/-- Entry-list version of `walkFiles_nodup`. -/
theorem walkFilesEntries_nodup (p : Str) (e : Entries) (hp : goodPath p)
    (hwf : wfEntries e = true) : (walkFilesEntries p e).Nodup := by
  cases e with
  | nil => simp [walkFilesEntries]
  | cons n d rest =>
    simp only [wfEntries, Bool.and_eq_true] at hwf
    have hjg := joinPath_good hp hwf.1.1.1
    have hnn := goodName_iff.mp hwf.1.1.1
    simp only [walkFilesEntries]
    rw [hjg.1]
    refine List.Nodup.append (walkFiles_nodup _ d hjg.2 hwf.1.2)
      (walkFilesEntries_nodup p rest hp hwf.2) ?_
    rintro ⟨q, f⟩ hx hx2
    rcases walkFilesEntries_shape p rest hp hwf.2 q f hx2 with ⟨n2, t2, hn2, h2, he2⟩
    have hn2g := goodName_iff.mp (entryNames_good rest hwf.2 n2 hn2)
    have hshape : ∃ t, q = p ++ '/' :: (n ++ t) ∧ (t = [] ∨ t.take 1 = ['/']) := by
      rcases walkFiles_shape _ d hjg.2 hwf.1.2 q f hx with h3 | ⟨n3, t3, _, h3, he3⟩
      · exact ⟨[], by simpa using h3, Or.inl rfl⟩
      · refine ⟨'/' :: (n3 ++ t3), ?_, Or.inr rfl⟩
        rw [h3]
        simp
    rcases hshape with ⟨t, h3, he3⟩
    rw [h3] at h2
    have hcancel : n ++ t = n2 ++ t2 := by
      have h4 := List.append_cancel_left h2
      injection h4
    have : n = n2 := seg_append_inj hnn.2 hn2g.2 he3 he2 hcancel
    exact (of_decide_eq_true hwf.1.1.2) (this ▸ hn2)
end

/-- C2: for every input file nested under the input root (with the relative
directory given by `segs`, possibly empty, and final component `name`), every
output root and every target height, `get_output_path` places the output under
the output root with the same intermediate segments; in resolution-convert
mode the filename is the stem followed by an underscore, the target height,
`p`, and the original extension; in audio-extract mode it is the stem followed
by `.mp3`, the original extension being dropped. -/
theorem C2_get_output_path_structure (root out name : Str) (segs : List Str)
    (h : Int) (hname : name ≠ []) (hns : '/' ∉ name)
    (hsegs : ∀ s ∈ segs, s ≠ [] ∧ '/' ∉ s)
    (hout1 : out ≠ []) (hout2 : out.getLast? ≠ some '/') :
    get_output_path (root ++ '/' :: joinSegs (segs ++ [name])) root out
        (some h) false =
      out ++ '/' :: joinSegs (segs ++
        [(splitext name).1 ++ '_' ::
          ((toString h).toList ++ 'p' :: (splitext name).2)]) ∧
    get_output_path (root ++ '/' :: joinSegs (segs ++ [name])) root out
        none true =
      out ++ '/' :: joinSegs (segs ++ [(splitext name).1 ++ ".mp3".toList]) := by
  have hrel : relpath (root ++ '/' :: joinSegs (segs ++ [name])) root =
      joinSegs (segs ++ [name]) := by
    unfold relpath
    simpa using @List.drop_append _ root _ 1
  have hbase := splitext_head name hname
  cases segs with
  | nil =>
    simp only [List.nil_append, joinSegs_singleton] at hrel ⊢
    have hb : ∀ t : Str, ((splitext name).1 ++ t).take 1 ≠ ['/'] := by
      intro t
      rw [take_one_append _ _ hbase.1, hbase.2]
      exact take_one_ne_sep name hname hns
    constructor
    · simp only [get_output_path, thStr]
      rw [if_neg (by simp), hrel]
      exact joinPath_eq out _ hout1 hout2 (hb _)
    · simp only [get_output_path, thStr]
      rw [if_pos trivial, hrel]
      exact joinPath_eq out _ hout1 hout2 (hb _)
  | cons s0 r =>
    have hs0 : s0 ≠ [] ∧ '/' ∉ s0 := hsegs s0 (List.mem_cons_self s0 r)
    have hjh := joinSegs_cons_head s0 r hs0.1
    have hj : joinSegs ((s0 :: r) ++ [name]) = joinSegs (s0 :: r) ++ '/' :: name :=
      joinSegs_append_last (s0 :: r) name (by simp)
    have hsx : splitext (joinSegs (s0 :: r) ++ '/' :: name) =
        (joinSegs (s0 :: r) ++ '/' :: (splitext name).1, (splitext name).2) :=
      splitext_sep _ hns
    have hb : ∀ t : Str,
        ((joinSegs (s0 :: r) ++ '/' :: (splitext name).1) ++ t).take 1 ≠ ['/'] := by
      intro t
      rw [take_one_append _ _ (by simp [hjh.1] : joinSegs (s0 :: r) ++
        '/' :: (splitext name).1 ≠ [])]
      rw [take_one_append _ _ hjh.1, hjh.2]
      exact take_one_ne_sep s0 hs0.1 hs0.2
    constructor
    · simp only [get_output_path, thStr]
      rw [if_neg (by simp), hrel, hj, hsx]
      rw [joinSegs_append_last (s0 :: r) _ (by simp)]
      rw [joinPath_eq out _ hout1 hout2 (hb _)]
      simp
    · simp only [get_output_path, thStr]
      rw [if_pos trivial, hrel, hj, hsx]
      rw [joinSegs_append_last (s0 :: r) _ (by simp)]
      rw [joinPath_eq out _ hout1 hout2 (hb _)]
      simp

/-- Closed instantiation of the C2 theorem at the input
`root/a/b/clip.mp4` with output root `02.出力` and target height 480. -/
theorem C2_get_output_path_structure_witness :
    get_output_path ("01.入力/a/b/clip.mp4".toList) ("01.入力".toList)
        ("02.出力".toList) (some 480) false = "02.出力/a/b/clip_480p.mp4".toList ∧
    get_output_path ("01.入力/a/b/clip.mp4".toList) ("01.入力".toList)
        ("02.出力".toList) none true = "02.出力/a/b/clip.mp3".toList := by
  have h := C2_get_output_path_structure ("01.入力".toList) ("02.出力".toList)
    ("clip.mp4".toList) ["a".toList, "b".toList] 480
    (by decide) (by decide) (by decide) (by decide) (by decide)
  exact ⟨by simpa using h.1, by simpa using h.2⟩

/-- C3: over every well-formed directory tree, `get_input_files` returns the
joined path of a file if and only if the file occurs in the walk of the tree
and its extension, compared case-insensitively, is on the whitelist; each
matching file at any depth appears exactly once (the result has no
duplicates); and when no file matches the result is the empty list.  The
extension test accepts an uppercase `.MKV` and rejects `.txt`. -/
theorem C3_get_input_files_whitelist (p : Str) (d : Dir)
    (hp : goodPath p) (hwf : wfDir d = true) :
    (∀ s, s ∈ get_input_files p d ↔
        ∃ q f, (q, f) ∈ walkFiles p d ∧ isSupported f = true ∧
          s = joinPath q f) ∧
    (get_input_files p d).Nodup ∧
    ((∀ q f, (q, f) ∈ walkFiles p d → isSupported f = false) →
        get_input_files p d = []) ∧
    isSupported ("CLIP.MKV".toList) = true ∧
    isSupported ("clip.txt".toList) = false := by
  refine ⟨?_, ?_, ?_, by decide, by decide⟩
  · intro s
    rw [get_input_files_eq]
    constructor
    · intro hs
      rcases List.mem_map.mp hs with ⟨⟨q, f⟩, hq, hjoin⟩
      rcases List.mem_filter.mp hq with ⟨hq1, hq2⟩
      exact ⟨q, f, hq1, hq2, hjoin.symm⟩
    · rintro ⟨q, f, h1, h2, rfl⟩
      exact List.mem_map.mpr ⟨(q, f), List.mem_filter.mpr ⟨h1, h2⟩, rfl⟩
  · rw [get_input_files_eq]
    refine List.Nodup.map_on ?_
      (List.Nodup.filter _ (walkFiles_nodup p d hp hwf))
    intro x hx y hy hxy
    obtain ⟨qx, fx⟩ := x
    obtain ⟨qy, fy⟩ := y
    have hgx := walkFiles_good p d hp hwf qx fx (List.mem_of_mem_filter hx)
    have hgy := walkFiles_good p d hp hwf qy fy (List.mem_of_mem_filter hy)
    have hjx := joinPath_good hgx.1 hgx.2
    have hjy := joinPath_good hgy.1 hgy.2
    simp only at hxy
    rw [hjx.1, hjy.1] at hxy
    have hinj := last_sep_inj (goodName_iff.mp hgx.2).2
      (goodName_iff.mp hgy.2).2 hxy
    rw [hinj.1, hinj.2]
  · intro hall
    rw [get_input_files_eq, List.filter_eq_nil_iff.mpr]
    · rfl
    · rintro ⟨q, f⟩ hqf
      simp [hall q f hqf]

/-- Closed instantiation of the C3 theorem on the sample tree: the nested
uppercase-extension file is discovered (at its joined path) and the discovered
list has no duplicates. -/
theorem C3_get_input_files_whitelist_witness :
    ("01.入力/sub/c.MKV".toList) ∈ get_input_files INPUT_FOLDER sampleTree ∧
    (get_input_files INPUT_FOLDER sampleTree).Nodup :=
  ⟨((C3_get_input_files_whitelist INPUT_FOLDER sampleTree (by decide)
        (by decide)).1 _).mpr
      ⟨"01.入力/sub".toList, "c.MKV".toList, by decide, by decide, by decide⟩,
   (C3_get_input_files_whitelist INPUT_FOLDER sampleTree (by decide)
      (by decide)).2.1⟩

/-- C10: in audio-extract mode `get_output_path` is independent of the
target-height argument: any two values of `target_height` (including the
default `None`) give the identical output path. -/
theorem C10_get_output_path_audio_ignores_height
    (input_path input_folder output_folder : Str)
    (th1 th2 : Option Int) :
    get_output_path input_path input_folder output_folder th1 true =
      get_output_path input_path input_folder output_folder th2 true := rfl

end VideoConverter
